import Mathlib

/-!
Verification of the hole-punching utilities of `kfactory/utils/hole.py`
(`HoleProcessor` and `hole_tiled`).

The embedding models KLayout regions as finite sets of integer database-unit
points (`Finset (ℤ × ℤ)`): boolean region operations become finite-set
operations, `Region.sized` becomes Chebyshev dilation/erosion, boxes become
integer rectangles, and the tiling-processor queue expression that
`hole_tiled` assembles as a string is embedded as structured terms evaluated
against a name-to-region input environment (inputs are registered by name via
`tp.input`, later registrations of a name shadowing earlier ones).
-/

namespace KF

/-- A point in integer database units. -/
abbrev Pt : Type := ℤ × ℤ

/-- A region: the set of dbu points covered by the polygons. -/
abbrev Region : Type := Finset Pt

/-- An axis-aligned box in dbu, mirroring `kdb.Box` with corners p1 = (x1, y1)
and p2 = (x2, y2). -/
structure Box where
  x1 : ℤ
  y1 : ℤ
  x2 : ℤ
  y2 : ℤ
deriving DecidableEq

/-- Membership of a point in a box. -/
def inBox (b : Box) (p : Pt) : Prop :=
  b.x1 ≤ p.1 ∧ p.1 ≤ b.x2 ∧ b.y1 ≤ p.2 ∧ p.2 ≤ b.y2

instance (b : Box) (p : Pt) : Decidable (inBox b p) :=
  inferInstanceAs (Decidable (b.x1 ≤ p.1 ∧ p.1 ≤ b.x2 ∧ b.y1 ≤ p.2 ∧ p.2 ≤ b.y2))

/-- The region covered by a box. -/
def boxRegion (b : Box) : Region :=
  Finset.Icc (b.x1, b.y1) (b.x2, b.y2)

/-- Minkowski sum of two boxes (`kdb.Box` + `kdb.Box`): corner-wise sum.
This is what `_tile.minkowski_sum(Box.new(0,0,w-1,h-1))` computes on the
(rectangular) tile. -/
def Box.minkowskiSum (a b : Box) : Box :=
  ⟨a.x1 + b.x1, a.y1 + b.y1, a.x2 + b.x2, a.y2 + b.y2⟩

/-- Point-set Minkowski sum of two regions (used to state the spec's
"tile rectangle Minkowski-summed with a box" formula). -/
def minkowskiPts (a b : Region) : Region :=
  a.biUnion fun p => b.image fun q => p + q

/-- `Region.sized(d)`: Chebyshev dilation by `d` for `d ≥ 0` (KLayout sizing
with square ends), erosion by `-d` for negative `d`. -/
def sized (r : Region) (d : ℤ) : Region :=
  if 0 ≤ d then
    r.biUnion fun p => Finset.Icc (p.1 - d, p.2 - d) (p.1 + d, p.2 + d)
  else
    r.filter fun p => Finset.Icc (p.1 + d, p.2 + d) (p.1 - d, p.2 - d) ⊆ r

/-- Python `int()` on a rational: truncation toward zero. Models
`int(x_space / c.kcl.dbu)` in `hole_tiled` (line 239). -/
def pyInt (q : ℚ) : ℤ :=
  if 0 ≤ q then ⌊q⌋ else ⌈q⌉

/-- Modelled from the spec: `KCLayout.to_dbu` is not among the sources (only
`hole.py` is); the spec asks for "the keepout's dbu-converted value", modelled
as rounding the user-unit keepout divided by the dbu scale. -/
def toDbu (dbu : ℚ) (k : ℤ) : ℤ :=
  round ((k : ℚ) / dbu)

/-- `kdb.LayerInfo`: a layer either carries a name, or a layer/datatype pair. -/
structure LayerInfo where
  lname : String
  named : Bool
  layer : ℤ
  datatype : ℤ
deriving DecidableEq

/-- The input name under which `hole_tiled` registers a layer with the tiling
processor (lines 200-207 and 220-227). -/
def layerInputName (li : LayerInfo) : String :=
  if li.named then "layer" ++ li.lname
  else "layer_" ++ toString li.layer ++ "_" ++ toString li.datatype

/-- The input name under which `hole_tiled` registers the `i`-th explicit
region with the tiling processor (lines 212-215 and 232-235): both the `i`-th
hole region and the `i`-th exclusion region get this very name. -/
def regionInputName (i : ℕ) : String :=
  "region" ++ toString i

/-- The `tp.input` registrations generated for a list of (layer, keepout)
pairs: each layer is registered under its `layerInputName`, bound to the
target cell's shapes on that layer (`layerReg`). -/
def layerInputs (layerReg : LayerInfo → Region) (ls : List (LayerInfo × ℤ)) :
    List (String × Region) :=
  ls.map fun p => (layerInputName p.1, layerReg p.1)

/-- The `tp.input` registrations generated for a list of (region, keepout)
pairs starting at index `i`: mirrors `for i, (r, _) in enumerate(...)`. -/
def regionInputsAux (i : ℕ) : List (Region × ℤ) → List (String × Region)
  | [] => []
  | r :: rs => (regionInputName i, r.1) :: regionInputsAux (i + 1) rs

/-- All `tp.input` registrations of one `hole_tiled` call, in source order:
hole layers, hole regions, exclude layers, exclude regions. -/
def inputList (layerReg : LayerInfo → Region) (hls : List (LayerInfo × ℤ))
    (hrs : List (Region × ℤ)) (exls : List (LayerInfo × ℤ))
    (exrs : List (Region × ℤ)) : List (String × Region) :=
  layerInputs layerReg hls ++ regionInputsAux 0 hrs ++
    layerInputs layerReg exls ++ regionInputsAux 0 exrs

/-- Resolve a name among the registered inputs; registering a name again
replaces the earlier binding, so lookup scans the registrations from the
last to the first. -/
def lookupAux : List (String × Region) → String → Option Region
  | [], _ => none
  | (m, r) :: rest, n => if m = n then some r else lookupAux rest n

/-- The region an input name denotes during expression evaluation
(last registration of that name wins; unregistered names denote nothing). -/
def lookupInput (env : List (String × Region)) (n : String) : Region :=
  (lookupAux env.reverse n).getD ∅

/-- The terms of the hole (or exclude) expression contributed by layer
inputs: each term is the input's name with its keepout. -/
def layerTerms (ls : List (LayerInfo × ℤ)) : List (String × ℤ) :=
  ls.map fun p => (layerInputName p.1, p.2)

/-- The terms contributed by explicit-region inputs, starting at index `i`. -/
def regionTermsAux (i : ℕ) : List (Region × ℤ) → List (String × ℤ)
  | [] => []
  | r :: rs => (regionInputName i, r.2) :: regionTermsAux (i + 1) rs

/-- Evaluation of one expression term, mirroring
`name + ".sized(to_dbu(size))" if size else name` (lines 260-292): a nonzero
keepout sizes the input's region by the dbu-converted keepout, a zero keepout
leaves it as is. -/
def termEval (dbu : ℚ) (env : List (String × Region)) (t : String × ℤ) :
    Region :=
  if t.2 ≠ 0 then sized (lookupInput env t.1) (toDbu dbu t.2)
  else lookupInput env t.1

/-- Evaluation of a `+`-joined list of terms: union of the term values. -/
def unionEval (dbu : ℚ) (env : List (String × Region))
    (ts : List (String × ℤ)) : Region :=
  ts.foldr (fun t acc => termEval dbu env t ∪ acc) ∅

/-- The `hole` part of the queue expression after the boolean structure of the
string is applied: `hole - exclude` when any exclusion input exists
(`exlayer_names or exregion_names`), plain `hole` otherwise. In KLayout's
expression language `-` binds tighter than `&`, so
`... & _frame & hole - exclude` parses with `hole - exclude` as one
operand; since `(a ∩ b) \ x = a ∩ (b \ x)` for sets, the grouping does not
change the computed region. -/
def baseHoleRegion (dbu : ℚ) (env : List (String × Region))
    (hts ets : List (String × ℤ)) (hasExcl : Bool) : Region :=
  if hasExcl then unionEval dbu env hts \ unionEval dbu env ets
  else unionEval dbu env hts

/-- The per-tile region `hole_region` computed by the queue expression and
handed to the output receiver (lines 296-318):
`_tile.minkowski_sum(Box.new(0,0,w-1,h-1)) & _frame & hole - exclude`
with `w`, `h` the hole-cell bounding-box width and height. -/
def tileOutputRegion (tile frameB : Box) (hcW hcH : ℤ) (dbu : ℚ)
    (env : List (String × Region)) (hts ets : List (String × ℤ))
    (hasExcl : Bool) : Region :=
  boxRegion (tile.minkowskiSum ⟨0, 0, hcW - 1, hcH - 1⟩) ∩ boxRegion frameB ∩
    baseHoleRegion dbu env hts ets hasExcl

/-- Following the spec's words: a single input "grown by its associated
keepout distance before unioning (size operation with the keepout's
dbu-converted value; zero keepout means no growth)". -/
def sizedIfKeepout (dbu : ℚ) (r : Region) (k : ℤ) : Region :=
  if k ≠ 0 then sized r (toDbu dbu k) else r

/-- Following the spec's words: the union `H` (or `X`) over all hole
(or excluded) inputs, layers and explicit regions, each grown by its own
keepout. -/
def specUnion (dbu : ℚ) (layerReg : LayerInfo → Region)
    (ls : List (LayerInfo × ℤ)) (rs : List (Region × ℤ)) : Region :=
  (ls.map fun p => sizedIfKeepout dbu (layerReg p.1) p.2).foldr (· ∪ ·) ∅ ∪
    (rs.map fun p => sizedIfKeepout dbu p.1 p.2).foldr (· ∪ ·) ∅

/-- Following the spec's words (claim C3): admissible area =
(tile Minkowski-summed with a box of size (w-1, h-1) anchored at the origin)
∩ frame ∩ H, minus X when at least one exclusion input exists, with H and X
the unions of the hole/exclusion inputs each grown by its own keepout. -/
def specAdmissibleArea (tile frameB : Box) (hcW hcH : ℤ) (dbu : ℚ)
    (layerReg : LayerInfo → Region) (hls : List (LayerInfo × ℤ))
    (hrs : List (Region × ℤ)) (exls : List (LayerInfo × ℤ))
    (exrs : List (Region × ℤ)) : Region :=
  let d := minkowskiPts (boxRegion tile) (boxRegion ⟨0, 0, hcW - 1, hcH - 1⟩)
  let base := d ∩ boxRegion frameB ∩ specUnion dbu layerReg hls hrs
  if exls.isEmpty && exrs.isEmpty then base
  else base \ specUnion dbu layerReg exls exrs

/-- Lattice and tile-size data computed by `hole_tiled` before dispatch. -/
structure HoleConfig where
  tileSize : ℚ × ℚ
  border : ℚ × ℚ
  rowStep : ℤ × ℤ
  colStep : ℤ × ℤ

/-- The dbbox dimension of the hole cell: its integer bbox extent scaled by
the dbu resolution (`hole_cell.dbbox().width()` for a bbox width of `hw`
dbu). -/
def dbboxDim (w : ℤ) (dbu : ℚ) : ℚ :=
  w * dbu

/-- The configuration `hole_tiled` computes from the hole cell's bounding box
(width `hw`, height `hh` in dbu), the dbu scale and the requested spacings
(lines 190-195 and 239-240):
tile size `100 * (dbbox dims + spacing)` in user units, tile border `(20, 20)`,
`row_step = (hw + int(x_space / dbu), 0)` and
`column_step = (0, hh + int(y_space / dbu))`. -/
def holeTiledSetup (hw hh : ℤ) (dbu xs ys : ℚ) : HoleConfig :=
  ⟨(100 * (dbboxDim hw dbu + xs), 100 * (dbboxDim hh dbu + ys)),
   (20, 20),
   (hw + pyInt (xs / dbu), 0),
   (0, hh + pyInt (ys / dbu))⟩

/-- Following the spec's words (claim C4): `row_step =
(round((hw + x_space) / dbu), 0)` with `hw` the hole-cell bbox width in user
units (here given as `hw` dbu, i.e. `hw * dbu` user units). -/
def rowStepSpec (hw : ℤ) (dbu xs : ℚ) : ℤ × ℤ :=
  (round ((dbboxDim hw dbu + xs) / dbu), 0)

/-- Modelled from the spec: `Cell.fill_region` is not among the sources; the
spec (section 4.3) describes the hole stamper as stamping period-lattice-step
instances of the hole cell wherever they fit entirely within the admissible
region, using the tile's origin as lattice anchor. An instance stamped with
its origin at `p` occupies the dbu points `[p.1, p.1 + w - 1] × [p.2, p.2 +
h - 1]`; the stamped origins are the lattice points `anchor + i * row_step +
j * column_step` whose footprint lies inside the admissible region `a`. -/
def stamps (a : Region) (anchor : Pt) (rsx csy w h : ℤ) : Region :=
  a.filter fun p =>
    (p.1 - anchor.1) % rsx = 0 ∧ (p.2 - anchor.2) % csy = 0 ∧
      Finset.Icc p (p.1 + w - 1, p.2 + h - 1) ⊆ a

/-- The tile with index `(ix, iy)` in a tiling of the frame whose lower-left
corner is `f1`, with tile width `tw` and height `th` in dbu. -/
def tileBoxAt (f1 : Pt) (tw th : ℤ) (ix iy : ℤ) : Box :=
  ⟨f1.1 + ix * tw, f1.2 + iy * th, f1.1 + (ix + 1) * tw, f1.2 + (iy + 1) * th⟩

/-- The accumulated hole pattern of a tiled run over an `nx × ny` tile grid:
each tile's `put` stamps the lattice anchored at that tile's own origin
`tile.p1` (line 101) into the shared pattern buffer; the buffer is the union
of all tiles' stamps. -/
def stampedTiled (frameB : Box) (tw th : ℤ) (nx ny : ℕ) (hcW hcH rsx csy : ℤ)
    (dbu : ℚ) (env : List (String × Region)) (hts ets : List (String × ℤ))
    (hasExcl : Bool) : Region :=
  (Finset.range nx).biUnion fun ix =>
    (Finset.range ny).biUnion fun iy =>
      let t := tileBoxAt (frameB.x1, frameB.y1) tw th ix iy
      stamps (tileOutputRegion t frameB hcW hcH dbu env hts ets hasExcl)
        (t.x1, t.y1) rsx csy hcW hcH

/-- The hole pattern of the same scenario processed as a single tile covering
the whole frame: one `put` call whose tile is the frame box, anchored at the
frame's lower-left corner. -/
def stampedSingle (frameB : Box) (hcW hcH rsx csy : ℤ) (dbu : ℚ)
    (env : List (String × Region)) (hts ets : List (String × ℤ))
    (hasExcl : Bool) : Region :=
  stamps (tileOutputRegion frameB frameB hcW hcH dbu env hts ets hasExcl)
    (frameB.x1, frameB.y1) rsx csy hcW hcH

/-- The target-layer search of `HoleProcessor.insert_holes` (lines 123-128):
the first layer index, in the enumeration order of the hole cell's hosting
layout (`layers`), whose shape container on the hole cell is non-empty
(`sz` gives each container's `size()`). -/
def findTargetLayer (layers : List ℤ) (sz : ℤ → ℕ) : Option ℤ :=
  layers.find? fun l => sz l > 0

/-- `self.top_cell.shapes(target_layer).clear()` (line 149) on the
layer-indexed shape containers of the destination cell. -/
def clearLayer (dest : ℤ → Region) (tl : ℤ) : ℤ → Region :=
  Function.update dest tl ∅

/-- `self.top_cell.shapes(target_layer).insert(final_region)` (line 150). -/
def insertIntoLayer (dest : ℤ → Region) (tl : ℤ) (r : Region) : ℤ → Region :=
  Function.update dest tl (dest tl ∪ r)

/-- `HoleProcessor.insert_holes` (lines 108-150) acting on the destination
cell's layer-indexed shape containers `dest`: locate the target layer; if
none exists, warn and return the destination untouched; otherwise read the
original shapes, subtract the accumulated hole pattern, then clear the target
layer and insert the result. -/
def insertHoles (layers : List ℤ) (sz : ℤ → ℕ) (pattern : ℤ → Region)
    (dest : ℤ → Region) : ℤ → Region :=
  match findTargetLayer layers sz with
  | none => dest
  | some tl =>
    let finalRegion := dest tl \ pattern tl
    insertIntoLayer (clearLayer dest tl) tl finalRegion

/-- The finalization of `hole_tiled` (lines 320-330): `tp.execute` runs the
tiled phase, which writes only into the processor's temporary layout; when it
succeeds, `operator.insert_holes()` commits the replacement; when it raises,
`insert_holes` is never reached and the destination cell was never written
(the `finally` only ends the change bracket). -/
def holeTiledFinalize (execOk : Bool) (layers : List ℤ) (sz : ℤ → ℕ)
    (pattern : ℤ → Region) (dest : ℤ → Region) : ℤ → Region :=
  if execOk then insertHoles layers sz pattern dest else dest

/-- The destination cell's shape containers after a `hole_tiled` call: when
no hole layers and no hole regions are supplied, the guard
`if layer_names or region_names:` (line 257) skips queueing, execution and
finalization entirely; otherwise the run finalizes with the accumulated
pattern. -/
def holeTiled (hls : List (LayerInfo × ℤ)) (hrs : List (Region × ℤ))
    (exls : List (LayerInfo × ℤ)) (exrs : List (Region × ℤ)) (execOk : Bool)
    (layers : List ℤ) (sz : ℤ → ℕ) (pattern : ℤ → Region)
    (dest : ℤ → Region) : ℤ → Region :=
  if hls.isEmpty && hrs.isEmpty then dest
  else holeTiledFinalize execOk layers sz pattern dest

/-! Concrete fixtures used by witnesses and counterexamples. -/

/-- An unnamed layer with layer number 1 and datatype 0. -/
def liC1 : LayerInfo := ⟨"", false, 1, 0⟩

/-- A layer-region reading in which every layer carries the single dbu point
(351, 0). -/
def layerRegC1 : LayerInfo → Region := fun _ => {((351 : ℤ), (0 : ℤ))}

/-- A layer-region reading in which every layer is empty. -/
def lrEmpty : LayerInfo → Region := fun _ => ∅

/-- A one-point region at the origin. -/
def rW : Region := {((0 : ℤ), (0 : ℤ))}

/-- A one-point region at (1, 1). -/
def rW2 : Region := {((1 : ℤ), (1 : ℤ))}

/-- A registered-input environment with one layer input bound to the
origin point. -/
def envC8 : List (String × Region) := [("layerA", {((0 : ℤ), (0 : ℤ))})]

/-- Shape-container sizes of a hole cell with shapes on layers 3 and 7. -/
def szW : ℤ → ℕ := fun l => if l = 3 then 1 else if l = 7 then 5 else 0

/-- Shape-container sizes of a hole cell with no shapes on any layer. -/
def szZero : ℤ → ℕ := fun _ => 0

/-- Destination-cell shapes: two points on layer 3, nothing elsewhere. -/
def destW : ℤ → Region :=
  fun l => if l = 3 then {((0 : ℤ), (0 : ℤ)), ((1 : ℤ), (0 : ℤ))} else ∅

/-- An accumulated hole pattern holding the point (1, 0) on every layer. -/
def patternW : ℤ → Region := fun _ => {((1 : ℤ), (0 : ℤ))}

/-! Helper lemmas. -/

theorem mem_boxRegion {b : Box} {p : Pt} : p ∈ boxRegion b ↔ inBox b p := by
  cases p with
  | mk x y =>
    simp only [boxRegion, inBox, Finset.mem_Icc, Prod.le_def]
    tauto

theorem mem_minkowskiPts {a b : Region} {p : Pt} :
    p ∈ minkowskiPts a b ↔ ∃ q ∈ a, ∃ r ∈ b, p = q + r := by
  unfold minkowskiPts
  rw [Finset.mem_biUnion]
  constructor
  · rintro ⟨q, hq, hmem⟩
    rw [Finset.mem_image] at hmem
    obtain ⟨r, hr, hp⟩ := hmem
    exact ⟨q, hq, r, hr, hp.symm⟩
  · rintro ⟨q, hq, r, hr, rfl⟩
    exact ⟨q, hq, Finset.mem_image.mpr ⟨r, hr, rfl⟩⟩

theorem boxRegion_minkowskiSum {a b : Box} (ha1 : a.x1 ≤ a.x2)
    (ha2 : a.y1 ≤ a.y2) (hb1 : b.x1 ≤ b.x2) (hb2 : b.y1 ≤ b.y2) :
    boxRegion (a.minkowskiSum b) = minkowskiPts (boxRegion a) (boxRegion b) := by
  ext p
  rw [mem_minkowskiPts, mem_boxRegion]
  constructor
  · rintro ⟨h1, h2, h3, h4⟩
    refine ⟨(max a.x1 (p.1 - b.x2), max a.y1 (p.2 - b.y2)), ?_, (p.1 - max a.x1 (p.1 - b.x2), p.2 - max a.y1 (p.2 - b.y2)), ?_, ?_⟩
    · rw [mem_boxRegion]
      simp only [Box.minkowskiSum, inBox] at *
      constructor
      · exact le_max_left _ _
      refine ⟨?_, le_max_left _ _, ?_⟩ <;> omega
    · rw [mem_boxRegion]
      simp only [Box.minkowskiSum, inBox] at *
      omega
    · cases p
      simp only [Prod.mk_add_mk, Prod.mk.injEq]
      omega
  · rintro ⟨q, hq, r, hr, rfl⟩
    rw [mem_boxRegion] at hq hr
    simp only [Box.minkowskiSum, inBox, Prod.fst_add, Prod.snd_add] at *
    omega

theorem mem_sized_of_nonneg {r : Region} {d : ℤ} (hd : 0 ≤ d) {p : Pt} :
    p ∈ sized r d ↔ ∃ q ∈ r, q.1 - d ≤ p.1 ∧ p.1 ≤ q.1 + d ∧
      q.2 - d ≤ p.2 ∧ p.2 ≤ q.2 + d := by
  simp only [sized, if_pos hd, Finset.mem_biUnion, Finset.mem_Icc,
    Prod.le_def]
  constructor
  · rintro ⟨q, hq, ⟨h1, h2⟩, h3, h4⟩
    exact ⟨q, hq, h1, h3, h2, h4⟩
  · rintro ⟨q, hq, h1, h2, h3, h4⟩
    exact ⟨q, hq, ⟨h1, h3⟩, h2, h4⟩

theorem subset_sized {r : Region} {d : ℤ} (hd : 0 ≤ d) : r ⊆ sized r d := by
  intro p hp
  rw [mem_sized_of_nonneg hd]
  exact ⟨p, hp, by omega, by omega, by omega, by omega⟩

theorem sized_mono {r : Region} {d1 d2 : ℤ} (h1 : 0 ≤ d1) (h : d1 ≤ d2) :
    sized r d1 ⊆ sized r d2 := by
  intro p hp
  rw [mem_sized_of_nonneg h1] at hp
  rw [mem_sized_of_nonneg (le_trans h1 h)]
  obtain ⟨q, hq, a1, a2, a3, a4⟩ := hp
  exact ⟨q, hq, by omega, by omega, by omega, by omega⟩

theorem toDbu_nonneg {dbu : ℚ} (hdbu : 0 < dbu) {k : ℤ} (hk : 0 ≤ k) :
    0 ≤ toDbu dbu k := by
  have h0 : (0 : ℚ) ≤ (k : ℚ) / dbu := by positivity
  have : round (0 : ℚ) ≤ round ((k : ℚ) / dbu) := by
    rw [round_eq, round_eq]
    exact Int.floor_mono (by linarith)
  simpa [toDbu] using this

theorem toDbu_mono {dbu : ℚ} (hdbu : 0 < dbu) {k1 k2 : ℤ} (h : k1 ≤ k2) :
    toDbu dbu k1 ≤ toDbu dbu k2 := by
  unfold toDbu
  rw [round_eq, round_eq]
  apply Int.floor_mono
  have : (k1 : ℚ) / dbu ≤ (k2 : ℚ) / dbu := by
    gcongr
  linarith

theorem unionEval_nil (dbu : ℚ) (env : List (String × Region)) :
    unionEval dbu env [] = ∅ := rfl

theorem unionEval_cons (dbu : ℚ) (env : List (String × Region))
    (t : String × ℤ) (ts : List (String × ℤ)) :
    unionEval dbu env (t :: ts) = termEval dbu env t ∪ unionEval dbu env ts :=
  rfl

theorem unionEval_append (dbu : ℚ) (env : List (String × Region))
    (ts1 ts2 : List (String × ℤ)) :
    unionEval dbu env (ts1 ++ ts2) =
      unionEval dbu env ts1 ∪ unionEval dbu env ts2 := by
  induction ts1 with
  | nil => simp [unionEval_nil, unionEval_cons]
  | cons t ts ih =>
    rw [List.cons_append, unionEval_cons, unionEval_cons, ih,
      Finset.union_assoc]

theorem lookupAux_mem {l : List (String × Region)} {n : String} {r : Region}
    (h : lookupAux l n = some r) : (n, r) ∈ l := by
  induction l with
  | nil => simp [lookupAux] at h
  | cons x xs ih =>
    cases x with
    | mk m s =>
      by_cases hm : m = n
      · subst hm
        simp [lookupAux] at h
        simp [h]
      · simp only [lookupAux, if_neg hm] at h
        exact List.mem_cons_of_mem _ (ih h)

theorem lookupAux_isSome {l : List (String × Region)} {n : String}
    {r : Region} (h : (n, r) ∈ l) : (lookupAux l n).isSome := by
  induction l with
  | nil => simp at h
  | cons x xs ih =>
    cases x with
    | mk m s =>
      by_cases hm : m = n
      · simp [lookupAux, hm]
      · simp only [lookupAux, if_neg hm, List.mem_cons] at *
        rcases h with h | h
        · exact absurd (congrArg Prod.fst h).symm hm
        · exact ih h

/-- When every input name is bound to a single region, looking an input's
name up yields the region it was registered with. -/
theorem lookupInput_eq {env : List (String × Region)}
    (hU : ∀ p ∈ env, ∀ q ∈ env, p.1 = q.1 → p.2 = q.2) {n : String}
    {r : Region} (hm : (n, r) ∈ env) : lookupInput env n = r := by
  unfold lookupInput
  have hmr : (n, r) ∈ env.reverse := List.mem_reverse.mpr hm
  cases hres : lookupAux env.reverse n with
  | none =>
    have := lookupAux_isSome hmr
    rw [hres] at this
    simp at this
  | some s =>
    have hs : (n, s) ∈ env := List.mem_reverse.mp (lookupAux_mem hres)
    simpa using (hU _ hs _ hm rfl)

theorem mem_layerInputs {layerReg : LayerInfo → Region}
    {ls : List (LayerInfo × ℤ)} {li : LayerInfo} {k : ℤ}
    (h : (li, k) ∈ ls) :
    (layerInputName li, layerReg li) ∈ layerInputs layerReg ls := by
  unfold layerInputs
  exact List.mem_map.mpr ⟨(li, k), h, rfl⟩

theorem regionInputsAux_getElem (i : ℕ) (rs : List (Region × ℤ)) (j : ℕ)
    (hj : j < rs.length) :
    (regionInputsAux i rs)[j]? = some (regionInputName (i + j), rs[j].1) := by
  induction rs generalizing i j with
  | nil => simp at hj
  | cons r rest ih =>
    cases j with
    | zero => simp [regionInputsAux]
    | succ j' =>
      have hj' : j' < rest.length := by
        simp only [List.length_cons] at hj
        omega
      simp only [regionInputsAux, List.getElem?_cons_succ,
        List.getElem_cons_succ]
      rw [ih (i + 1) j' hj']
      have hidx : i + 1 + j' = i + (j' + 1) := by omega
      rw [hidx]

theorem mem_regionInputsAux {i : ℕ} {rs : List (Region × ℤ)} {j : ℕ}
    (hj : j < rs.length) :
    (regionInputName (i + j), rs[j].1) ∈ regionInputsAux i rs := by
  induction rs generalizing i j with
  | nil => simp at hj
  | cons r rest ih =>
    cases j with
    | zero => simp [regionInputsAux]
    | succ j' =>
      have hj' : j' < rest.length := by
        simp only [List.length_cons] at hj
        omega
      have hidx : i + (j' + 1) = i + 1 + j' := by omega
      simp only [regionInputsAux, List.getElem_cons_succ, hidx]
      exact List.mem_cons_of_mem _ (ih hj')

theorem regionTermsAux_getElem (i : ℕ) (rs : List (Region × ℤ)) (j : ℕ)
    (hj : j < rs.length) :
    (regionTermsAux i rs)[j]? = some (regionInputName (i + j), rs[j].2) := by
  induction rs generalizing i j with
  | nil => simp at hj
  | cons r rest ih =>
    cases j with
    | zero => simp [regionTermsAux]
    | succ j' =>
      have hj' : j' < rest.length := by
        simp only [List.length_cons] at hj
        omega
      simp only [regionTermsAux, List.getElem?_cons_succ,
        List.getElem_cons_succ]
      rw [ih (i + 1) j' hj']
      have hidx : i + 1 + j' = i + (j' + 1) := by omega
      rw [hidx]

theorem tileOutputRegion_eq_filter (tile frameB : Box) (hcW hcH : ℤ)
    (dbu : ℚ) (env : List (String × Region)) (hts ets : List (String × ℤ))
    (hasExcl : Bool) :
    tileOutputRegion tile frameB hcW hcH dbu env hts ets hasExcl =
      (baseHoleRegion dbu env hts ets hasExcl).filter fun p =>
        inBox (tile.minkowskiSum ⟨0, 0, hcW - 1, hcH - 1⟩) p ∧
          inBox frameB p := by
  ext p
  simp only [tileOutputRegion, Finset.mem_inter, Finset.mem_filter,
    mem_boxRegion]
  tauto

theorem mem_tileOutputRegion {tile frameB : Box} {hcW hcH : ℤ} {dbu : ℚ}
    {env : List (String × Region)} {hts ets : List (String × ℤ)}
    {hasExcl : Bool} {p : Pt} :
    p ∈ tileOutputRegion tile frameB hcW hcH dbu env hts ets hasExcl ↔
      p ∈ baseHoleRegion dbu env hts ets hasExcl ∧
        inBox (tile.minkowskiSum ⟨0, 0, hcW - 1, hcH - 1⟩) p ∧
          inBox frameB p := by
  rw [tileOutputRegion_eq_filter, Finset.mem_filter]

theorem mem_stamps {a : Region} {anchor : Pt} {rsx csy w h : ℤ} {p : Pt} :
    p ∈ stamps a anchor rsx csy w h ↔
      p ∈ a ∧ (p.1 - anchor.1) % rsx = 0 ∧ (p.2 - anchor.2) % csy = 0 ∧
        Finset.Icc p (p.1 + w - 1, p.2 + h - 1) ⊆ a := by
  unfold stamps
  rw [Finset.mem_filter]

theorem emod_sub_multiple (a n k : ℤ) : (a - n * k) % n = a % n := by
  rw [sub_eq_add_neg, ← mul_neg, Int.add_mul_emod_self_left]

theorem inBox_minkowski_of_inBox {fb : Box} {w h : ℤ} (hw : 1 ≤ w)
    (hh : 1 ≤ h) {q : Pt} (hq : inBox fb q) :
    inBox (fb.minkowskiSum ⟨0, 0, w - 1, h - 1⟩) q := by
  simp only [Box.minkowskiSum, inBox] at *
  omega

/-- Folded-union evaluation of layer terms, when every layer's input name
still resolves to the layer's region. -/
theorem unionEval_layerTerms (dbu : ℚ) (env : List (String × Region))
    (layerReg : LayerInfo → Region) (ls : List (LayerInfo × ℤ))
    (hU : ∀ p ∈ env, ∀ q ∈ env, p.1 = q.1 → p.2 = q.2)
    (hmem : ∀ li k, (li, k) ∈ ls → (layerInputName li, layerReg li) ∈ env) :
    unionEval dbu env (layerTerms ls) =
      (ls.map fun p => sizedIfKeepout dbu (layerReg p.1) p.2).foldr
        (· ∪ ·) ∅ := by
  induction ls with
  | nil => rfl
  | cons x rest ih =>
    cases x with
    | mk li k =>
      have hlk : lookupInput env (layerInputName li) = layerReg li :=
        lookupInput_eq hU (hmem li k (List.mem_cons_self _ _))
      have ih' := ih fun li' k' h => hmem li' k' (List.mem_cons_of_mem _ h)
      show termEval dbu env (layerInputName li, k) ∪
          unionEval dbu env (layerTerms rest)
        = sizedIfKeepout dbu (layerReg li) k ∪
          (rest.map fun p => sizedIfKeepout dbu (layerReg p.1) p.2).foldr
            (· ∪ ·) ∅
      rw [ih']
      congr 1
      simp only [termEval, sizedIfKeepout, hlk]

/-- Folded-union evaluation of explicit-region terms, when every region's
input name still resolves to the region it was registered with. -/
theorem unionEval_regionTerms (dbu : ℚ) (env : List (String × Region))
    (i : ℕ) (rs : List (Region × ℤ))
    (hU : ∀ p ∈ env, ∀ q ∈ env, p.1 = q.1 → p.2 = q.2)
    (hmem : ∀ x ∈ regionInputsAux i rs, x ∈ env) :
    unionEval dbu env (regionTermsAux i rs) =
      (rs.map fun p => sizedIfKeepout dbu p.1 p.2).foldr (· ∪ ·) ∅ := by
  induction rs generalizing i with
  | nil => rfl
  | cons r rest ih =>
    have hlk : lookupInput env (regionInputName i) = r.1 :=
      lookupInput_eq hU (hmem _ (by simp [regionInputsAux]))
    simp only [regionTermsAux, List.map_cons, unionEval_cons,
      List.foldr_cons]
    rw [ih (i + 1) fun x hx =>
      hmem x (by simp only [regionInputsAux, List.mem_cons]; exact Or.inr hx)]
    congr 1
    simp only [termEval, sizedIfKeepout, hlk]

theorem inter_inter_sdiff (a b c d : Region) :
    a ∩ b ∩ (c \ d) = (a ∩ b ∩ c) \ d := by
  ext p
  simp only [Finset.mem_inter, Finset.mem_sdiff]
  tauto

/-! Claims. -/

/-- Claim C1, counterexample: with a hole cell of bbox 1 x 1 dbu at dbu scale
1 and x_space = 5/2 user units, `hole_tiled` computes row step 3 and tile
width 350 dbu, which is not a multiple of the row step; on a frame spanning
3 x 3 tiles (3 across, 11 up) with a single hole-layer point at (351, 0),
the single-tile run stamps a hole at (351, 0) (on the frame-anchored lattice)
but the tiled run stamps nothing there (the covering tile's lattice is
anchored at its own origin x = 350, phase 2 mod 3), so the stamped counts and
positions differ, refuting the claim as stated. -/
theorem C1_counterexample :
    (holeTiledSetup 1 1 1 (5 / 2) 0).rowStep = (3, 0)
      ∧ (holeTiledSetup 1 1 1 (5 / 2) 0).colStep = (0, 1)
      ∧ (holeTiledSetup 1 1 1 (5 / 2) 0).tileSize = (350, 100)
      ∧ stampedTiled ⟨0, 0, 1049, 1049⟩ 350 100 3 11 1 1 3 1 1
          (inputList layerRegC1 [(liC1, 0)] [] [] [])
          (layerTerms [(liC1, 0)]) [] false
        ≠ stampedSingle ⟨0, 0, 1049, 1049⟩ 1 1 3 1 1
            (inputList layerRegC1 [(liC1, 0)] [] [] [])
            (layerTerms [(liC1, 0)]) [] false := by
  refine ⟨?_, ?_, ?_, ?_⟩
  · simp only [holeTiledSetup, pyInt, dbboxDim]
    norm_num
  · simp only [holeTiledSetup, pyInt, dbboxDim]
    norm_num
  · simp only [holeTiledSetup, dbboxDim]
    norm_num
  · simp only [stampedTiled, stampedSingle, tileOutputRegion_eq_filter]
    decide

/-- Claim C1 (amended): when additionally the tile width and height are
integer multiples of the row and column steps (which holds exactly when the
spacings are whole multiples of the dbu resolution), a tiled run over a grid
of at least 3 x 3 tiles covering the frame stamps exactly the same set of
hole positions as processing the identical scenario as a single tile
covering the whole frame: no position is missing and none is added at tile
borders (coincident duplicate stamps collapse in the accumulated pattern). -/
theorem C1_seam_continuity (fb : Box) (tw th : ℤ) (nx ny : ℕ)
    (hcW hcH rsx csy : ℤ) (dbu : ℚ) (env : List (String × Region))
    (hts ets : List (String × ℤ)) (hasExcl : Bool)
    (hrsx : 0 < rsx) (hcsy : 0 < csy) (hW : 1 ≤ hcW) (hH : 1 ≤ hcH)
    (htw : 0 < tw) (hth : 0 < th) (hdx : rsx ∣ tw) (hdy : csy ∣ th)
    (hnx : 3 ≤ nx) (hny : 3 ≤ ny)
    (hcovx : fb.x2 < fb.x1 + nx * tw) (hcovy : fb.y2 < fb.y1 + ny * th) :
    stampedTiled fb tw th nx ny hcW hcH rsx csy dbu env hts ets hasExcl
      = stampedSingle fb hcW hcH rsx csy dbu env hts ets hasExcl := by
  obtain ⟨kx, hkx⟩ := hdx
  obtain ⟨ky, hky⟩ := hdy
  ext p
  simp only [stampedTiled, stampedSingle, Finset.mem_biUnion,
    Finset.mem_range]
  constructor
  · rintro ⟨ix, hix, iy, hiy, hp⟩
    rw [mem_stamps] at hp ⊢
    obtain ⟨hpA, hl1, hl2, hsub⟩ := hp
    rw [mem_tileOutputRegion] at hpA
    obtain ⟨hB, hD, hF⟩ := hpA
    refine ⟨?_, ?_, ?_, ?_⟩
    · rw [mem_tileOutputRegion]
      exact ⟨hB, inBox_minkowski_of_inBox hW hH hF, hF⟩
    · simp only [tileBoxAt] at hl1
      have heq : p.1 - fb.x1 =
          (p.1 - (fb.x1 + ix * tw)) + rsx * (kx * ix) := by
        rw [hkx]; ring
      rw [heq, Int.add_mul_emod_self_left]
      exact hl1
    · simp only [tileBoxAt] at hl2
      have heq : p.2 - fb.y1 =
          (p.2 - (fb.y1 + iy * th)) + csy * (ky * iy) := by
        rw [hky]; ring
      rw [heq, Int.add_mul_emod_self_left]
      exact hl2
    · intro u hu
      have huA := hsub hu
      rw [mem_tileOutputRegion] at huA ⊢
      exact ⟨huA.1, inBox_minkowski_of_inBox hW hH huA.2.2, huA.2.2⟩
  · intro hp
    rw [mem_stamps] at hp
    obtain ⟨hpA, hl1, hl2, hsub⟩ := hp
    rw [mem_tileOutputRegion] at hpA
    obtain ⟨hB, hD, hF⟩ := hpA
    obtain ⟨hFx1, hFx2, hFy1, hFy2⟩ := hF
    set qx := (p.1 - fb.x1) / tw with hqxdef
    set rx := (p.1 - fb.x1) % tw with hrxdef
    set qy := (p.2 - fb.y1) / th with hqydef
    set ry := (p.2 - fb.y1) % th with hrydef
    have hdmx : tw * qx + rx = p.1 - fb.x1 := Int.ediv_add_emod _ _
    have hrx0 : 0 ≤ rx := Int.emod_nonneg _ (ne_of_gt htw)
    have hrxlt : rx < tw := Int.emod_lt_of_pos _ htw
    have hqx0 : 0 ≤ qx := Int.ediv_nonneg (by omega) htw.le
    have hdmy : th * qy + ry = p.2 - fb.y1 := Int.ediv_add_emod _ _
    have hry0 : 0 ≤ ry := Int.emod_nonneg _ (ne_of_gt hth)
    have hrylt : ry < th := Int.emod_lt_of_pos _ hth
    have hqy0 : 0 ≤ qy := Int.ediv_nonneg (by omega) hth.le
    have hqxlt : qx < (nx : ℤ) := by
      by_contra hc
      push_neg at hc
      have hmul : (nx : ℤ) * tw ≤ qx * tw :=
        mul_le_mul_of_nonneg_right hc htw.le
      linarith
    have hqylt : qy < (ny : ℤ) := by
      by_contra hc
      push_neg at hc
      have hmul : (ny : ℤ) * th ≤ qy * th :=
        mul_le_mul_of_nonneg_right hc hth.le
      linarith
    have hcx : ((qx.toNat : ℤ)) = qx := Int.toNat_of_nonneg hqx0
    have hcy : ((qy.toNat : ℤ)) = qy := Int.toNat_of_nonneg hqy0
    refine ⟨qx.toNat, by omega, qy.toNat, by omega, ?_⟩
    rw [mem_stamps]
    simp only [tileBoxAt, hcx, hcy]
    have hTx1 : fb.x1 + qx * tw ≤ p.1 := by linarith
    have hTx2 : p.1 < fb.x1 + (qx + 1) * tw := by
      have : (qx + 1) * tw = tw * qx + tw := by ring
      linarith
    have hTy1 : fb.y1 + qy * th ≤ p.2 := by linarith
    have hTy2 : p.2 < fb.y1 + (qy + 1) * th := by
      have : (qy + 1) * th = th * qy + th := by ring
      linarith
    refine ⟨?_, ?_, ?_, ?_⟩
    · rw [mem_tileOutputRegion]
      refine ⟨hB, ?_, hFx1, hFx2, hFy1, hFy2⟩
      simp only [Box.minkowskiSum, inBox]
      constructor
      · linarith
      refine ⟨by linarith, by linarith, by linarith⟩
    · have heq : p.1 - (fb.x1 + qx * tw) =
          (p.1 - fb.x1) - rsx * (kx * qx) := by
        rw [hkx]; ring
      rw [heq, emod_sub_multiple]
      exact hl1
    · have heq : p.2 - (fb.y1 + qy * th) =
          (p.2 - fb.y1) - csy * (ky * qy) := by
        rw [hky]; ring
      rw [heq, emod_sub_multiple]
      exact hl2
    · intro u hu
      have huA := hsub hu
      rw [mem_tileOutputRegion] at huA ⊢
      obtain ⟨huB, huD, huF⟩ := huA
      refine ⟨huB, ?_, huF⟩
      simp only [Finset.mem_Icc, Prod.le_def] at hu
      obtain ⟨⟨hu1, hu2⟩, hu3, hu4⟩ := hu
      simp only [Box.minkowskiSum, inBox]
      refine ⟨by linarith, by linarith, by linarith, by linarith⟩

/-- Witness for claim C1: a 3 x 3 tiling with unit tile size and unit steps
over a 3 x 3 frame stamps the same set as the single-tile run. -/
theorem C1_seam_continuity_witness :
    stampedTiled ⟨0, 0, 2, 2⟩ 1 1 3 3 1 1 1 1 1
        [("r", {((1 : ℤ), (1 : ℤ))})] [("r", 0)] [] false
      = stampedSingle ⟨0, 0, 2, 2⟩ 1 1 1 1 1
          [("r", {((1 : ℤ), (1 : ℤ))})] [("r", 0)] [] false :=
  C1_seam_continuity ⟨0, 0, 2, 2⟩ 1 1 3 3 1 1 1 1 1
    [("r", {((1 : ℤ), (1 : ℤ))})] [("r", 0)] [] false
    (by decide) (by decide) (by decide) (by decide) (by decide) (by decide)
    (dvd_refl 1) (dvd_refl 1) (by decide) (by decide) (by decide) (by decide)

/-- Claim C2: when the hole cell has a non-empty layer (a target layer is
found), finalization mutates the destination cell's shape containers at
exactly one point — the target layer, which is cleared and replaced by the
original shapes minus the accumulated hole pattern, computed by boolean
region subtraction — every other layer is untouched; and when `tp.execute`
fails before the commit step, the destination is returned entirely
untouched. -/
theorem C2_atomic_replacement (layers : List ℤ) (sz : ℤ → ℕ)
    (pattern : ℤ → Region) (dest : ℤ → Region) (tl : ℤ)
    (htl : findTargetLayer layers sz = some tl) :
    holeTiledFinalize true layers sz pattern dest
        = Function.update dest tl (dest tl \ pattern tl)
      ∧ (∀ l, l ≠ tl →
          holeTiledFinalize true layers sz pattern dest l = dest l)
      ∧ holeTiledFinalize false layers sz pattern dest = dest := by
  refine ⟨?_, ?_, rfl⟩
  · unfold holeTiledFinalize insertHoles
    rw [htl]
    simp only [if_true]
    unfold insertIntoLayer clearLayer
    ext l
    by_cases h : l = tl
    · subst h
      simp [Function.update]
    · simp [Function.update, h]
  · intro l hl
    unfold holeTiledFinalize insertHoles
    rw [htl]
    simp only [if_true]
    unfold insertIntoLayer clearLayer
    simp [Function.update, hl]

/-- Witness for claim C2: a hole cell with shapes on layers 3 and 7
finalizes by replacing layer 3 of the destination with the subtraction
result. -/
theorem C2_atomic_replacement_witness :
    findTargetLayer [3, 7] szW = some 3
      ∧ holeTiledFinalize true [3, 7] szW patternW destW
          = Function.update destW 3 (destW 3 \ patternW 3) :=
  ⟨by decide,
    (C2_atomic_replacement [3, 7] szW patternW destW 3 (by decide)).1⟩

/-- Claim C3, counterexample: with one hole region at the origin (keepout 0)
and one exclusion region at (1, 1) (keepout 0), both registered under the
input name "region0", the evaluated per-tile output is empty (both terms
resolve to the last-registered exclusion region), while the claimed formula
D ∩ frame ∩ H minus X yields the origin point — so the claim as stated is
false. -/
theorem C3_counterexample :
    tileOutputRegion ⟨0, 0, 2, 2⟩ ⟨0, 0, 2, 2⟩ 1 1 1
        (inputList lrEmpty [] [(rW, 0)] [] [(rW2, 0)])
        (regionTermsAux 0 [(rW, 0)]) (regionTermsAux 0 [(rW2, 0)]) true
      ≠ specAdmissibleArea ⟨0, 0, 2, 2⟩ ⟨0, 0, 2, 2⟩ 1 1 1 lrEmpty []
          [(rW, 0)] [] [(rW2, 0)] := by
  decide

/-- Claim C3 (amended): the per-tile area handed to the output receiver
equals (tile Minkowski-summed with a box of size (w-1, h-1) anchored at the
origin) ∩ frame ∩ H, minus X exactly when an exclusion input exists, with H
and X the unions of the hole/exclusion inputs each grown by its own keepout
(zero keepout means no growth) — provided the registered input names are
uniquely bound (no name is registered twice with different regions; the
counterexample shows the formula fails when a hole region and an exclusion
region collide on the name "region-i"). -/
theorem C3_admissible_area (tile frameB : Box) (hcW hcH : ℤ) (dbu : ℚ)
    (layerReg : LayerInfo → Region) (hls : List (LayerInfo × ℤ))
    (hrs : List (Region × ℤ)) (exls : List (LayerInfo × ℤ))
    (exrs : List (Region × ℤ))
    (hW : 1 ≤ hcW) (hH : 1 ≤ hcH)
    (htile1 : tile.x1 ≤ tile.x2) (htile2 : tile.y1 ≤ tile.y2)
    (hhole : hls ≠ [] ∨ hrs ≠ [])
    (hU : ∀ p ∈ inputList layerReg hls hrs exls exrs,
      ∀ q ∈ inputList layerReg hls hrs exls exrs, p.1 = q.1 → p.2 = q.2) :
    tileOutputRegion tile frameB hcW hcH dbu
        (inputList layerReg hls hrs exls exrs)
        (layerTerms hls ++ regionTermsAux 0 hrs)
        (layerTerms exls ++ regionTermsAux 0 exrs)
        (!(exls.isEmpty && exrs.isEmpty))
      = specAdmissibleArea tile frameB hcW hcH dbu layerReg hls hrs exls
          exrs := by
  set env := inputList layerReg hls hrs exls exrs with henv
  have hmem_hls : ∀ li k, (li, k) ∈ hls →
      (layerInputName li, layerReg li) ∈ env := by
    intro li k h
    rw [henv]
    unfold inputList
    exact List.mem_append_left _ (List.mem_append_left _
      (List.mem_append_left _ (mem_layerInputs h)))
  have hmem_hrs : ∀ x ∈ regionInputsAux 0 hrs, x ∈ env := by
    intro x hx
    rw [henv]
    unfold inputList
    exact List.mem_append_left _ (List.mem_append_left _
      (List.mem_append_right _ hx))
  have hmem_exls : ∀ li k, (li, k) ∈ exls →
      (layerInputName li, layerReg li) ∈ env := by
    intro li k h
    rw [henv]
    unfold inputList
    exact List.mem_append_left _
      (List.mem_append_right _ (mem_layerInputs h))
  have hmem_exrs : ∀ x ∈ regionInputsAux 0 exrs, x ∈ env := by
    intro x hx
    rw [henv]
    unfold inputList
    exact List.mem_append_right _ hx
  have hH1 : unionEval dbu env (layerTerms hls ++ regionTermsAux 0 hrs) =
      specUnion dbu layerReg hls hrs := by
    rw [unionEval_append, unionEval_layerTerms dbu env layerReg hls hU
      hmem_hls, unionEval_regionTerms dbu env 0 hrs hU hmem_hrs]
    rfl
  have hX1 : unionEval dbu env (layerTerms exls ++ regionTermsAux 0 exrs) =
      specUnion dbu layerReg exls exrs := by
    rw [unionEval_append, unionEval_layerTerms dbu env layerReg exls hU
      hmem_exls, unionEval_regionTerms dbu env 0 exrs hU hmem_exrs]
    rfl
  have hmink : boxRegion (tile.minkowskiSum ⟨0, 0, hcW - 1, hcH - 1⟩) =
      minkowskiPts (boxRegion tile) (boxRegion ⟨0, 0, hcW - 1, hcH - 1⟩) :=
    boxRegion_minkowskiSum htile1 htile2 (by dsimp only; omega)
      (by dsimp only; omega)
  unfold tileOutputRegion baseHoleRegion specAdmissibleArea
  rw [hH1, hX1, hmink]
  cases hcase : (exls.isEmpty && exrs.isEmpty) with
  | true => simp only [Bool.not_true, if_pos, if_neg, Bool.false_eq_true,
      if_false, hcase, if_true]
  | false =>
    simp only [Bool.not_false, if_true, hcase, Bool.false_eq_true, if_false]
    exact inter_inter_sdiff _ _ _ _

/-- Witness for claim C3: a single hole region with no exclusions — the
environment has uniquely bound names and the evaluated per-tile output
matches the spec formula. -/
theorem C3_admissible_area_witness :
    tileOutputRegion ⟨0, 0, 2, 2⟩ ⟨0, 0, 2, 2⟩ 1 1 1
        (inputList lrEmpty [] [(rW, 0)] [] [])
        (layerTerms [] ++ regionTermsAux 0 [(rW, 0)])
        (layerTerms [] ++ regionTermsAux 0 [])
        (!(List.isEmpty ([] : List (LayerInfo × ℤ))
          && List.isEmpty ([] : List (Region × ℤ))))
      = specAdmissibleArea ⟨0, 0, 2, 2⟩ ⟨0, 0, 2, 2⟩ 1 1 1 lrEmpty []
          [(rW, 0)] [] [] :=
  C3_admissible_area ⟨0, 0, 2, 2⟩ ⟨0, 0, 2, 2⟩ 1 1 1 lrEmpty [] [(rW, 0)]
    [] [] (by decide) (by decide) (by decide) (by decide)
    (Or.inr (by decide)) (by decide)

/-- Claim C4, counterexample: with a hole cell of bbox width 2 dbu, dbu scale
1 and x_space = 7/4 user units, the code computes row step
2 + int(7/4) = 3, while the claimed formula round((hw + x_space)/dbu) =
round(15/4) gives 4 — the code truncates the spacing separately instead of
rounding the sum. -/
theorem C4_counterexample :
    (holeTiledSetup 2 2 1 (7 / 4) 0).rowStep ≠ rowStepSpec 2 1 (7 / 4) := by
  have h1 : (holeTiledSetup 2 2 1 (7 / 4) 0).rowStep = (3, 0) := by
    simp only [holeTiledSetup, pyInt, dbboxDim]
    norm_num
  have h2 : rowStepSpec 2 1 (7 / 4) = (4, 0) := by
    simp only [rowStepSpec, dbboxDim]
    norm_num [round_eq]
  rw [h1, h2]
  decide

/-- Claim C4 (amended): for non-negative spacings and a positive dbu scale,
the lattice steps computed by `hole_tiled` are
row_step = (hw + floor(x_space / dbu), 0) and
column_step = (0, hh + floor(y_space / dbu)), with `hw`, `hh` the hole-cell
bbox dimensions in integer dbu: the spacing is truncated to dbu on its own
and added to the integer bbox extent, not rounded together with it. -/
theorem C4_lattice_steps (hw hh : ℤ) (dbu xs ys : ℚ) (hdbu : 0 < dbu)
    (hxs : 0 ≤ xs) (hys : 0 ≤ ys) :
    (holeTiledSetup hw hh dbu xs ys).rowStep = (hw + ⌊xs / dbu⌋, 0)
      ∧ (holeTiledSetup hw hh dbu xs ys).colStep = (0, hh + ⌊ys / dbu⌋) := by
  unfold holeTiledSetup pyInt
  rw [if_pos (div_nonneg hxs hdbu.le), if_pos (div_nonneg hys hdbu.le)]
  exact ⟨rfl, rfl⟩

/-- Witness for claim C4: bbox 2 x 2 dbu, dbu scale 1, x_space 2,
y_space 0. -/
theorem C4_lattice_steps_witness :
    (holeTiledSetup 2 2 1 2 0).rowStep = (2 + ⌊(2 : ℚ) / 1⌋, 0)
      ∧ (holeTiledSetup 2 2 1 2 0).colStep = (0, 2 + ⌊(0 : ℚ) / 1⌋) :=
  C4_lattice_steps 2 2 1 2 0 (by decide) (by decide) (by decide)

/-- Claim C5: the target layer selected by `insert_holes` is the first layer
index, in the layer-index enumeration order of the hole cell's hosting
layout, whose shape container on the hole cell is non-empty: every earlier
layer being empty and the layer itself non-empty forces its selection,
regardless of the content of later layers. -/
theorem C5_target_layer_first (pre post : List ℤ) (l : ℤ) (sz : ℤ → ℕ)
    (hpre : ∀ x ∈ pre, sz x = 0) (hl : 0 < sz l) :
    findTargetLayer (pre ++ l :: post) sz = some l := by
  induction pre with
  | nil =>
    simp only [List.nil_append]
    unfold findTargetLayer
    simp [List.find?, hl]
  | cons x rest ih =>
    have hx : sz x = 0 := hpre x (List.mem_cons_self _ _)
    have hrest := ih fun y hy => hpre y (List.mem_cons_of_mem _ hy)
    unfold findTargetLayer at *
    simp only [List.cons_append, List.find?]
    simp [hx, hrest]

/-- Witness for claim C5: layers 3 and 7 both carry shapes, layer 3 precedes
layer 7 in enumeration order, and layer 3 is selected regardless of layer 7
holding shapes. -/
theorem C5_target_layer_first_witness :
    findTargetLayer [3, 7] szW = some 3 :=
  C5_target_layer_first [] [7] 3 szW (by decide) (by decide)

/-- Claim C6: when the hole cell has zero shapes on every layer, no target
layer is found, so finalization returns the destination cell's shape
containers entirely unchanged (after the warning), whether or not the tiled
phase ran. -/
theorem C6_empty_hole_cell (layers : List ℤ) (sz : ℤ → ℕ)
    (pattern : ℤ → Region) (dest : ℤ → Region) (execOk : Bool)
    (hempty : ∀ l ∈ layers, sz l = 0) :
    holeTiledFinalize execOk layers sz pattern dest = dest := by
  have hnone : findTargetLayer layers sz = none := by
    unfold findTargetLayer
    rw [List.find?_eq_none]
    intro l hlm
    simp [hempty l hlm]
  cases execOk with
  | false => rfl
  | true =>
    unfold holeTiledFinalize insertHoles
    rw [hnone]
    simp

/-- Witness for claim C6: a hole cell with empty containers on layers 1 and
2 leaves the destination untouched. -/
theorem C6_empty_hole_cell_witness :
    holeTiledFinalize true [1, 2] szZero patternW destW = destW :=
  C6_empty_hole_cell [1, 2] szZero patternW destW true (by decide)

/-- Claim C7: when no hole layers and no hole regions are supplied, the
guard on line 257 skips queueing, execution and finalization regardless of
the exclusion inputs, so the run completes with the destination cell's
shape containers unchanged. -/
theorem C7_no_hole_inputs (hls : List (LayerInfo × ℤ))
    (hrs : List (Region × ℤ)) (exls : List (LayerInfo × ℤ))
    (exrs : List (Region × ℤ)) (execOk : Bool) (layers : List ℤ)
    (sz : ℤ → ℕ) (pattern : ℤ → Region) (dest : ℤ → Region)
    (h1 : hls = []) (h2 : hrs = []) :
    holeTiled hls hrs exls exrs execOk layers sz pattern dest = dest := by
  subst h1 h2
  rfl

/-- Witness for claim C7: no hole inputs but a non-empty exclusion region
list still leaves the destination untouched. -/
theorem C7_no_hole_inputs_witness :
    holeTiled [] [] [] [({((5 : ℤ), (5 : ℤ))}, 2)] true [3] szW patternW
        destW
      = destW :=
  C7_no_hole_inputs [] [] [] [({((5 : ℤ), (5 : ℤ))}, 2)] true [3] szW
    patternW destW rfl rfl

/-- Claim C8, counterexample: raising a hole layer's keepout from 0 to 1
grows the hole union, so the admissible area with the larger keepout is not
a subset of the area with the smaller keepout — the claimed direction of
monotonicity is reversed. -/
theorem C8_counterexample :
    ¬ (tileOutputRegion ⟨0, 0, 2, 2⟩ ⟨0, 0, 2, 2⟩ 1 1 1 envC8
        [("layerA", 1)] [] false
      ⊆ tileOutputRegion ⟨0, 0, 2, 2⟩ ⟨0, 0, 2, 2⟩ 1 1 1 envC8
          [("layerA", 0)] [] false) := by
  have ht : toDbu 1 1 = 1 := by
    unfold toDbu
    norm_num [round_eq]
  intro hsub
  have h1 : ((1 : ℤ), (0 : ℤ)) ∈ tileOutputRegion ⟨0, 0, 2, 2⟩
      ⟨0, 0, 2, 2⟩ 1 1 1 envC8 [("layerA", 1)] [] false := by
    rw [mem_tileOutputRegion]
    refine ⟨?_, by decide, by decide⟩
    simp only [baseHoleRegion, Bool.false_eq_true, if_false, unionEval_cons,
      unionEval_nil, termEval, ne_eq, OfNat.ofNat_ne_zero, not_false_eq_true,
      if_true, ht]
    decide
  have h2 := hsub h1
  have h3 : ((1 : ℤ), (0 : ℤ)) ∉ tileOutputRegion ⟨0, 0, 2, 2⟩
      ⟨0, 0, 2, 2⟩ 1 1 1 envC8 [("layerA", 0)] [] false := by decide
  exact h3 h2

/-- Claim C8 (amended): increasing a hole-layer keepout from a non-negative
value monotonically does not shrink the per-tile admissible area: the area
with the smaller keepout is a subset of the area with the larger keepout
(more or equally many holes are placed), all other configuration fixed. -/
theorem C8_keepout_monotone (tile frameB : Box) (hcW hcH : ℤ) (dbu : ℚ)
    (env : List (String × Region)) (pre post ets : List (String × ℤ))
    (n : String) (k1 k2 : ℤ) (hasExcl : Bool)
    (hdbu : 0 < dbu) (hk1 : 0 ≤ k1) (hk : k1 ≤ k2) :
    tileOutputRegion tile frameB hcW hcH dbu env (pre ++ (n, k1) :: post)
        ets hasExcl
      ⊆ tileOutputRegion tile frameB hcW hcH dbu env
          (pre ++ (n, k2) :: post) ets hasExcl := by
  have hterm : termEval dbu env (n, k1) ⊆ termEval dbu env (n, k2) := by
    unfold termEval
    by_cases h1 : k1 = 0
    · subst h1
      by_cases h2 : k2 = 0
      · subst h2
        exact subset_rfl
      · simp only [ne_eq, not_true_eq_false, if_false, h2,
          not_false_eq_true, if_true]
        exact subset_sized (toDbu_nonneg hdbu (by omega))
    · have h2 : k2 ≠ 0 := by omega
      simp only [ne_eq, h1, not_false_eq_true, if_true, h2]
      exact sized_mono (toDbu_nonneg hdbu hk1) (toDbu_mono hdbu hk)
  have hUn : unionEval dbu env (pre ++ (n, k1) :: post)
      ⊆ unionEval dbu env (pre ++ (n, k2) :: post) := by
    rw [unionEval_append, unionEval_append, unionEval_cons, unionEval_cons]
    exact Finset.union_subset_union subset_rfl
      (Finset.union_subset_union hterm subset_rfl)
  unfold tileOutputRegion baseHoleRegion
  cases hasExcl with
  | false =>
    simp only [Bool.false_eq_true, if_false]
    exact Finset.inter_subset_inter subset_rfl hUn
  | true =>
    simp only [if_true]
    exact Finset.inter_subset_inter subset_rfl
      (Finset.sdiff_subset_sdiff hUn subset_rfl)

/-- Witness for claim C8: raising the keepout of the only hole layer from 0
to 1 keeps every previously admissible point admissible. -/
theorem C8_keepout_monotone_witness :
    tileOutputRegion ⟨0, 0, 2, 2⟩ ⟨0, 0, 2, 2⟩ 1 1 1 envC8
        [("layerA", 0)] [] false
      ⊆ tileOutputRegion ⟨0, 0, 2, 2⟩ ⟨0, 0, 2, 2⟩ 1 1 1 envC8
          [("layerA", 1)] [] false :=
  C8_keepout_monotone ⟨0, 0, 2, 2⟩ ⟨0, 0, 2, 2⟩ 1 1 1 envC8 [] [] []
    "layerA" 0 1 false (by decide) (by decide) (by decide)

/-- Claim C9: `hole_tiled` configures the tile dispatcher with tile size
(100 * (hw + x_space), 100 * (hh + y_space)) in user units (the hole-cell
dbbox dimensions plus the spacings, scaled by 100) and a tile border fixed
at (20, 20), one 20 per side. -/
theorem C9_tile_config (hw hh : ℤ) (dbu xs ys : ℚ) :
    (holeTiledSetup hw hh dbu xs ys).tileSize
        = (100 * (hw * dbu + xs), 100 * (hh * dbu + ys))
      ∧ (holeTiledSetup hw hh dbu xs ys).border = (20, 20) :=
  ⟨rfl, rfl⟩

/-- Claim C10: the i-th hole region and the i-th exclusion region are both
registered with the tiling processor under the very same input name
"region-i"; both the hole term and the exclusion term of the generated
expression carry that one name, so within one evaluation they refer to the
same input, and — as the closing concrete conjunct shows — the name resolves
to the last-registered (exclusion) region, not to two distinct regions. -/
theorem C10_region_name_collision (layerReg : LayerInfo → Region)
    (hls exls : List (LayerInfo × ℤ)) (hrs exrs : List (Region × ℤ))
    (i : ℕ) (hi : i < hrs.length) (hj : i < exrs.length) :
    (regionInputName i, hrs[i].1) ∈ inputList layerReg hls hrs exls exrs
      ∧ (regionInputName i, exrs[i].1)
          ∈ inputList layerReg hls hrs exls exrs
      ∧ (regionTermsAux 0 hrs)[i]? = some (regionInputName i, hrs[i].2)
      ∧ (regionTermsAux 0 exrs)[i]? = some (regionInputName i, exrs[i].2)
      ∧ lookupInput
          (inputList (fun _ => ∅) [] [({((0 : ℤ), (0 : ℤ))}, 0)] []
            [({((1 : ℤ), (1 : ℤ))}, 5)]) (regionInputName 0)
          = {((1 : ℤ), (1 : ℤ))} := by
  refine ⟨?_, ?_, ?_, ?_, by decide⟩
  · unfold inputList
    refine List.mem_append_left _ (List.mem_append_left _
      (List.mem_append_right _ ?_))
    have := @mem_regionInputsAux 0 hrs i hi
    simpa using this
  · unfold inputList
    refine List.mem_append_right _ ?_
    have := @mem_regionInputsAux 0 exrs i hj
    simpa using this
  · have := regionTermsAux_getElem 0 hrs i hi
    simpa using this
  · have := regionTermsAux_getElem 0 exrs i hj
    simpa using this

/-- Witness for claim C10: one hole region and one exclusion region at
index 0, with different contents, collide on the input name "region0". -/
theorem C10_region_name_collision_witness :
    (regionInputName 0, rW) ∈ inputList lrEmpty [] [(rW, 0)] [] [(rW2, 5)]
      ∧ (regionInputName 0, rW2)
          ∈ inputList lrEmpty [] [(rW, 0)] [] [(rW2, 5)]
      ∧ (regionTermsAux 0 [(rW, 0)])[0]? = some (regionInputName 0, 0)
      ∧ (regionTermsAux 0 [(rW2, 5)])[0]? = some (regionInputName 0, 5)
      ∧ lookupInput
          (inputList (fun _ => ∅) [] [({((0 : ℤ), (0 : ℤ))}, 0)] []
            [({((1 : ℤ), (1 : ℤ))}, 5)]) (regionInputName 0)
          = {((1 : ℤ), (1 : ℤ))} :=
  C10_region_name_collision lrEmpty [] [] [(rW, 0)] [(rW2, 5)] 0
    (by decide) (by decide)

end KF
